import Mathlib

/-!
Verification of the `graphql2python` query builder
(`graphql2python/query/types.py`): an object model for GraphQL operations
(variables, arguments, fields, fragments, queries, operations) together with
the recursive rendering algorithm that turns a constructed tree into GraphQL
surface text.

The Python classes are pydantic models; each field validator runs once at
construction time, and pydantic collects the failures of all validators of a
model into one validation error.  We embed every entity as an inductive value,
each `render` method as a pure Lean function, and each constructor as a
function returning `Except (List QueryError) α` where the error list holds the
collected validator failures in field order.

Two collaborators of `types.py` live outside it and are modelled from the
specification rather than translated: the name validator `assert_name`
(an external library call; the spec describes it as the target language's
name grammar, `[_A-Za-z][_0-9A-Za-z]*`, identity on success) and the jinja2
template files (`variable.jinja2`, `argument_key_*.jinja2`, `field.jinja2`,
`inline_fragment.jinja2`, `fragment.jinja2`, `query.jinja2`,
`operation.jinja2`), whose textual skeletons are reconstructed from the
spec's rendering rules and end-to-end examples.  Every such definition is
marked `Modelled from the spec` in its doc comment.  Everything else is a
direct translation of `types.py`.
-/

namespace GraphQL2Python

/-- The error taxonomy of the builder: a `NamingError` carries the offending
identifier, an `EmptySelectionError` carries the kind of the entity whose
selection list was empty.  In `types.py` these are the `assert_name` failure
and the `ValueError("empty fields for this ...")` raised by the pydantic
validators. -/
inductive QueryError where
  | namingError (offending : String) : QueryError
  | emptySelectionError (entity : String) : QueryError
deriving DecidableEq, Repr

/-- Modelled from the spec: a character that may start a GraphQL name —
a letter or an underscore (`NameStart`). -/
def isNameStart (c : Char) : Bool :=
  c = '_' || c.isAlpha

/-- Modelled from the spec: a character that may continue a GraphQL name —
a letter, a digit or an underscore (`NameContinue`). -/
def isNameContinue (c : Char) : Bool :=
  isNameStart c || c.isDigit

/-- Modelled from the spec: the target language's name grammar
`[_A-Za-z][_0-9A-Za-z]*` — nonempty, not starting with a digit, only
letters/digits/underscore. -/
def isValidName (s : String) : Bool :=
  match s.data with
  | [] => false
  | c :: cs => isNameStart c && cs.all isNameContinue

/-- Modelled from the spec: the external name validator consumed by the
constructors (`assert_name` in `types.py`) — identity on a legal identifier,
`NamingError` otherwise. -/
def validate_name (s : String) : Except QueryError String :=
  if isValidName s then .ok s else .error (.namingError s)

/-- `GraphQL2PythonQuery._shift_line` of `types.py`:
`"\n  ".join(text.split("\n"))`.  A one-character separator makes Python's
`str.split` coincide with `String.split` on that character. -/
def shift_line (text : String) : String :=
  String.intercalate "\n  " (text.split (fun c => c = '\n'))

/-- The lines of a rendered text, split at newline characters exactly the way
`_shift_line` splits its input. -/
def linesOf (s : String) : List String :=
  s.split (fun c => c = '\n')

/-- `Variable` of `types.py`: a named, typed parameter with an optional
default. -/
structure Variable where
  name : String
  type : String
  default : Option String
deriving DecidableEq, Repr

mutual
/-- `Argument` of `types.py`: a name together with a value. -/
inductive Argument where
  | mk (name : String) (value : ArgValue)

/-- The union type of `Argument.value` in `types.py`:
`Union[str, Argument, List[Argument], Variable]`. -/
inductive ArgValue where
  | str (v : String)
  | arg (a : Argument)
  | args (l : List Argument)
  | varRef (v : Variable)
end

def Argument.name : Argument → String
  | .mk n _ => n

def Argument.value : Argument → ArgValue
  | .mk _ v => v

mutual
/-- `Field` of `types.py`: name, optional alias, arguments, child
selections, `typename` flag. -/
inductive Field where
  | mk (name : String) («alias» : Option String) (arguments : List Argument)
      (fields : List FieldChild) (typename : Bool)

/-- `InlineFragment` of `types.py`: a type condition, arguments, child
selections, `typename` flag. -/
inductive InlineFragment where
  | mk (type : String) (arguments : List Argument)
      (fields : List FieldChild) (typename : Bool)

/-- `Fragment` of `types.py`: a named, type-conditioned, reusable selection
group. -/
inductive Fragment where
  | mk (name : String) (type : String) (fields : List FieldChild)
      (typename : Bool)

/-- The union type of the `fields` lists in `types.py`:
`Union[str, Field, InlineFragment, Fragment]`. -/
inductive FieldChild where
  | str (s : String)
  | field (f : Field)
  | inlineFragment (i : InlineFragment)
  | fragment (f : Fragment)
end

def Field.name : GraphQL2Python.Field → String
  | .mk n _ _ _ _ => n

def Field.«alias» : GraphQL2Python.Field → Option String
  | .mk _ a _ _ _ => a

def Field.arguments : GraphQL2Python.Field → List Argument
  | .mk _ _ args _ _ => args

def Field.fields : GraphQL2Python.Field → List FieldChild
  | .mk _ _ _ fs _ => fs

def Field.typename : GraphQL2Python.Field → Bool
  | .mk _ _ _ _ t => t

def InlineFragment.type : InlineFragment → String
  | .mk t _ _ _ => t

def InlineFragment.arguments : InlineFragment → List Argument
  | .mk _ args _ _ => args

def InlineFragment.fields : InlineFragment → List FieldChild
  | .mk _ _ fs _ => fs

def InlineFragment.typename : InlineFragment → Bool
  | .mk _ _ _ t => t

def Fragment.name : Fragment → String
  | .mk n _ _ _ => n

def Fragment.type : Fragment → String
  | .mk _ t _ _ => t

def Fragment.fields : Fragment → List FieldChild
  | .mk _ _ fs _ => fs

def Fragment.typename : Fragment → Bool
  | .mk _ _ _ t => t

/-- `Query` of `types.py`: a top-level selection. -/
structure Query where
  name : String
  «alias» : Option String
  arguments : List Argument
  typename : Bool
  fields : List FieldChild

/-- `Operation` of `types.py`: the root of a GraphQL document. -/
structure Operation where
  type : String
  name : Option String
  «variables» : List Variable
  queries : List Query
  fragments : List Fragment

/-- `Operation._supported_types` of `types.py` (declared on the class and
never consulted by any validator). -/
def Operation.supported_types : List String :=
  ["query", "mutation", "subscription"]

/-! ## Construction-time validation

Each pydantic validator of `types.py` becomes one check; a model's
constructor runs the checks of its fields in declaration order and collects
every failure, mirroring pydantic's aggregation of all field errors into one
`ValidationError`. -/

/-- The check behind `assert_name(v)` on a mandatory name field. -/
def nameCheck (s : String) : Option QueryError :=
  match validate_name s with
  | .ok _ => none
  | .error e => some e

/-- The check behind the optional-alias validators
(`if v is not None: return assert_name(v)`). -/
def aliasCheck : Option String → Option QueryError
  | none => none
  | some s => nameCheck s

/-- The check behind the `len(v) == 0` guards of the `fields`/`queries`
validators; carries the owning entity's kind. -/
def selectionCheck {α : Type} (entity : String) (l : List α) : Option QueryError :=
  if l.isEmpty then some (.emptySelectionError entity) else none

/-- A pydantic v1 `validator` without `always=True` runs only when the
caller supplies the field; when the field is omitted the default
(`default_factory` producing `[]`) is installed unchecked.  A
selection-guarded list field is therefore passed as `none` (omitted:
validator skipped, value `[]`) or `some l` (supplied: validator runs on
`l`). -/
def selectionCheckOpt {α : Type} (entity : String) :
    Option (List α) → Option QueryError
  | none => none
  | some l => selectionCheck entity l

/-- Collect the failures of a list of checks, in order. -/
def runChecks (checks : List (Option QueryError)) : List QueryError :=
  checks.filterMap id

/-- Build the model if no check failed, otherwise report every failure. -/
def build {α : Type} (checks : List (Option QueryError)) (value : α) :
    Except (List QueryError) α :=
  match runChecks checks with
  | [] => .ok value
  | errs => .error errs

/-- Constructing a `Variable`: validator `graphql_variable_name`. -/
def mkVariable (name type : String) (default : Option String) :
    Except (List QueryError) Variable :=
  build [nameCheck name] ⟨name, type, default⟩

/-- Constructing an `Argument`: validator `graphql_argument_name`. -/
def mkArgument (name : String) (value : ArgValue) :
    Except (List QueryError) Argument :=
  build [nameCheck name] (.mk name value)

/-- Constructing a `Field`: validators `graphql_field_name` and
`graphql_field_alias`; note there is no check on `fields`. -/
def mkField (name : String) (al : Option String) (arguments : List Argument)
    (fields : List FieldChild) (typename : Bool) :
    Except (List QueryError) GraphQL2Python.Field :=
  build [nameCheck name, aliasCheck al] (.mk name al arguments fields typename)

/-- Constructing an `InlineFragment`: validator
`graphql_inline_fragment_fields` rejects an empty selection list, but only
when `fields` is supplied (`some l`); an omitted `fields` (`none`) defaults
to `[]` with the validator skipped, as pydantic v1 does. -/
def mkInlineFragment (type : String) (arguments : List Argument)
    (fields : Option (List FieldChild)) (typename : Bool) :
    Except (List QueryError) InlineFragment :=
  build [selectionCheckOpt "inline fragment" fields]
    (.mk type arguments (fields.getD []) typename)

/-- Constructing a `Fragment`: validators `graphql_fragment_name` and
`graphql_fragment_fields`; the latter is skipped when `fields` is omitted
(`none`, defaulting to `[]`).  `name` is a required field, so it is always
supplied and its validator always runs. -/
def mkFragment (name type : String) (fields : Option (List FieldChild))
    (typename : Bool) : Except (List QueryError) Fragment :=
  build [nameCheck name, selectionCheckOpt "fragment" fields]
    (.mk name type (fields.getD []) typename)

/-- Constructing a `Query`: validators `graphql_query_name`,
`graphql_alias_alias` and `graphql_query_fields`; the fields validator is
skipped when `fields` is omitted (`none`, defaulting to `[]`).  The alias
validator behaves identically on the default `None` and on a supplied
`None`, so `alias` needs no supplied/omitted distinction. -/
def mkQuery (name : String) (al : Option String) (arguments : List Argument)
    (typename : Bool) (fields : Option (List FieldChild)) :
    Except (List QueryError) Query :=
  build [nameCheck name, aliasCheck al, selectionCheckOpt "query" fields]
    ⟨name, al, arguments, typename, fields.getD []⟩

/-- Constructing an `Operation`: validators `graphql_operation_name` and
`graphql_queries`; the queries validator is skipped when `queries` is
omitted (`none`, defaulting to `[]`).  Faithful to `types.py`, no validator
inspects `type`, even though the class declares `_supported_types`. -/
def mkOperation (type : String) (name : Option String)
    («variables» : List Variable) (queries : Option (List Query))
    (fragments : List Fragment) : Except (List QueryError) Operation :=
  build [aliasCheck name, selectionCheckOpt "operation" queries]
    ⟨type, name, «variables», queries.getD [], fragments⟩

/-! ## Rendering

`render` methods of `types.py`.  The jinja2 template texts are modelled from
the spec (sections 4.2–4.5 and the end-to-end scenarios); the recursive
structure — which child is rendered, in which order, and which results pass
through `_shift_line` — is translated directly from the Python `render`
methods. -/

/-- Modelled from the spec: `variable.jinja2`, the leaf form
`$name: type` or `$name: type = default` (scenario 1). -/
def Variable.render (v : Variable) : String :=
  "$" ++ v.name ++ ": " ++ v.type ++
    (match v.default with
     | none => ""
     | some d => " = " ++ d)

mutual
/-- `Argument.render` of `types.py`: dispatch on the runtime shape of
`value`.  The four template skeletons (`argument_key_value`,
`argument_key_argument`, `argument_key_variable`, `argument_key_arguments`)
are modelled from the spec, section 4.3; the `_shift_line` wrapping of
recursive results is translated from the Python method. -/
def Argument.render : Argument → String
  | .mk name value =>
    match value with
    | .str v => name ++ ": " ++ v
    | .arg a => name ++ ": \x7b\n  " ++ shift_line (Argument.render a) ++ "\n\x7d"
    | .varRef v => name ++ ": $" ++ v.name
    | .args l =>
      name ++ ": [\n" ++
        String.intercalate "\n" ((Argument.renderEach l).map (fun x => "  " ++ x)) ++
        "\n]"

/-- The list comprehension
`[self._shift_line(argument.render()) for argument in self.value]`. -/
def Argument.renderEach : List Argument → List String
  | [] => []
  | a :: rest => shift_line (Argument.render a) :: Argument.renderEach rest
end

/-- Modelled from the spec: the header of a field or query — the name,
preceded by `alias: ` when an alias is present. -/
def renderHeaderName (al : Option String) (name : String) : String :=
  match al with
  | none => name
  | some a => a ++ ": " ++ name

/-- Modelled from the spec: the parenthesized argument list of a field,
inline fragment or query — omitted entirely when there are no arguments,
otherwise one argument per line, indented.  The elements arrive already
`_shift_line`-shifted, as in the Python `render` methods. -/
def renderArgsBlock (args : List String) : String :=
  if args.isEmpty then ""
  else "(\n" ++ String.intercalate "\n" (args.map (fun a => "  " ++ a)) ++ "\n)"

/-- Modelled from the spec: the brace-delimited selection block — the
reserved `__typename` field first when the flag is set, then each rendered
child on its own line, indented by one level (two spaces). -/
def renderSelections (typename : Bool) (fields : List String) : String :=
  " \x7b\n" ++
    String.intercalate "\n"
      (((if typename then ["__typename"] else []) ++ fields).map (fun f => "  " ++ f)) ++
    "\n\x7d"

mutual
/-- `Field.render` of `types.py`; the `field.jinja2` skeleton is modelled
from the spec (section 4.4 and scenario 3), with no selection block for a
leaf field with no children and no `typename` flag. -/
def Field.render : GraphQL2Python.Field → String
  | .mk name al args fields typename =>
    renderHeaderName al name ++ renderArgsBlock (Argument.renderEach args) ++
      (if fields.isEmpty && !typename then ""
       else renderSelections typename (FieldChild.renderEach fields))

/-- `InlineFragment.render` of `types.py`; the `inline_fragment.jinja2`
skeleton (`... on Type`) is modelled from the spec. -/
def InlineFragment.render : InlineFragment → String
  | .mk type args fields typename =>
    "... on " ++ type ++ renderArgsBlock (Argument.renderEach args) ++
      renderSelections typename (FieldChild.renderEach fields)

/-- `Fragment.render` of `types.py`; the `fragment.jinja2` skeleton
(`fragment Name on Type`) is modelled from the spec. -/
def Fragment.render : Fragment → String
  | .mk name type fields typename =>
    "fragment " ++ name ++ " on " ++ type ++
      renderSelections typename (FieldChild.renderEach fields)

/-- `GraphQL2PythonQuery._render_field` of `types.py`: a string child is
returned verbatim; a `Fragment` child renders as the spread `...name`,
never its body; a `Field` or `InlineFragment` child is rendered recursively
and passed through `_shift_line`. -/
def render_field : FieldChild → String
  | .str s => s
  | .fragment f => "..." ++ f.name
  | .field f => shift_line (Field.render f)
  | .inlineFragment i => shift_line (InlineFragment.render i)

/-- The list comprehension
`[self._render_field(field) for field in self.fields]`. -/
def FieldChild.renderEach : List FieldChild → List String
  | [] => []
  | c :: cs => render_field c :: FieldChild.renderEach cs
end

/-- `Query.render` of `types.py`; the `query.jinja2` skeleton is modelled
from the spec (section 4.4) — a query always has a selection block, its
`fields` being validated non-empty. -/
def Query.render (q : Query) : String :=
  renderHeaderName q.«alias» q.name ++
    renderArgsBlock (Argument.renderEach q.arguments) ++
    renderSelections q.typename (FieldChild.renderEach q.fields)

/-- The top-level fragment-definition section of an operation: every
fragment of `Operation.fragments` rendered in full, in declaration order,
separated from what precedes it by a blank line.  Modelled from the spec,
section 4.5. -/
def fragmentsSection (fragments : List Fragment) : String :=
  String.join (fragments.map (fun f => "\n\n" ++ f.render))

/-- The operation keyword, optional name, parenthesized variable
declarations and brace-delimited query block of `Operation.render`.
Modelled from the spec (section 4.5 and scenario 4); the `_shift_line`
wrapping of variables and queries is translated from the Python method. -/
def operationHead (type : String) (name : Option String)
    («variables» : List Variable) (queries : List Query) : String :=
  type ++
    (match name with
     | none => ""
     | some n => " " ++ n) ++
    (if «variables».isEmpty then ""
     else "(" ++
       String.intercalate ", " («variables».map (fun v => shift_line v.render)) ++ ")") ++
    " \x7b\n" ++
    String.intercalate "\n" (queries.map (fun q => "  " ++ shift_line q.render)) ++
    "\n\x7d"

/-- `Operation.render` of `types.py`; the `operation.jinja2` skeleton is
modelled from the spec, section 4.5. -/
def Operation.render (o : Operation) : String :=
  operationHead o.type o.name o.«variables» o.queries ++
    fragmentsSection o.fragments

/-! ## The indentation mechanism

`_shift_line` joins the lines of a text with `"\n  "`; a container's
template then writes the shifted text after a two-space prefix at the start
of a line.  Together the two put every line of the child text exactly one
indent level (two spaces) to the right.  The lemmas below make that precise
in terms of `linesOf`. -/

/-- One indentation step as a container performs it on a rendered child:
the template's two-space line start followed by the `_shift_line`-shifted
text. -/
def indentOnce (t : String) : String :=
  "  " ++ shift_line t

/-- `n` nested indentation steps — the transformation a text undergoes when
its node sits `n` levels below the root. -/
def indentIter : Nat → String → String
  | 0, t => t
  | n + 1, t => indentOnce (indentIter n t)

/-- The whitespace of `n` indent levels: `2 * n` spaces. -/
def indentSpaces : Nat → String
  | 0 => ""
  | n + 1 => "  " ++ indentSpaces n

theorem intercalate_go_append (x y s : String) (l : List String) :
    String.intercalate.go (x ++ y) s l = x ++ String.intercalate.go y s l := by
  induction l generalizing y with
  | nil => rfl
  | cons a t ih =>
    show String.intercalate.go ((x ++ y) ++ s ++ a) s t =
      x ++ String.intercalate.go (y ++ s ++ a) s t
    rw [String.append_assoc x y s, String.append_assoc x (y ++ s) a]
    exact ih (y ++ s ++ a)

theorem string_intercalate_cons_cons (s a b : String) (l : List String) :
    String.intercalate s (a :: b :: l) = a ++ s ++ String.intercalate s (b :: l) := by
  show String.intercalate.go (a ++ s ++ b) s l = (a ++ s) ++ String.intercalate.go b s l
  exact intercalate_go_append (a ++ s) b s l

theorem list_intercalate_cons_cons {α : Type} (s a b : List α) (l : List (List α)) :
    List.intercalate s (a :: b :: l) = a ++ s ++ List.intercalate s (b :: l) := by
  simp [List.intercalate, List.intersperse_cons₂, List.append_assoc]

/-- `String.intercalate` agrees character-wise with `List.intercalate`. -/
theorem data_intercalate (s : String) (l : List String) :
    (String.intercalate s l).data = List.intercalate s.data (l.map String.data) := by
  induction l with
  | nil => rfl
  | cons a t ih =>
    cases t with
    | nil =>
      simp only [String.intercalate, List.map_cons, List.map_nil, List.intercalate,
        List.intersperse_single, List.flatten]
      show a.data = a.data ++ []
      rw [List.append_nil]
    | cons b t2 =>
      rw [string_intercalate_cons_cons, List.map_cons, List.map_cons,
        list_intercalate_cons_cons]
      simp only [String.data_append]
      rw [List.map_cons] at ih
      rw [ih]

/-- No piece produced by `splitOnP` contains a separator. -/
theorem splitOnP_pieces_clean {α : Type} (p : α → Bool) (l : List α) :
    ∀ piece ∈ List.splitOnP p l, ∀ c ∈ piece, p c = false := by
  induction l with
  | nil =>
    intro piece hp c hc
    simp [List.splitOnP_nil] at hp
    subst hp
    cases hc
  | cons x xs ih =>
    intro piece hp c hc
    rw [List.splitOnP_cons] at hp
    by_cases hx : p x = true
    · rw [if_pos hx] at hp
      rcases List.mem_cons.mp hp with h | h
      · subst h; cases hc
      · exact ih piece h c hc
    · rw [if_neg hx] at hp
      obtain ⟨hd, tl, hsplit⟩ : ∃ hd tl, List.splitOnP p xs = hd :: tl := by
        cases hsp : List.splitOnP p xs with
        | nil => exact absurd hsp (List.splitOnP_ne_nil _ _)
        | cons a b => exact ⟨a, b, rfl⟩
      rw [hsplit, List.modifyHead_cons] at hp
      rcases List.mem_cons.mp hp with h | h
      · subst h
        rcases List.mem_cons.mp hc with h2 | h2
        · subst h2; exact Bool.not_eq_true _ ▸ Bool.of_not_eq_true hx
        · exact ih hd (hsplit ▸ List.mem_cons_self hd tl) c h2
      · exact ih piece (hsplit ▸ List.mem_cons_of_mem hd h) c hc

/-- `splitOnP` undoes `intercalate` with a single-separator when no piece
contains a separator (the `splitOnP` form of `List.splitOn_intercalate`). -/
theorem splitOnP_intercalate_singleton {α : Type} (p : α → Bool) (sep : α)
    (hsep : p sep = true) :
    ∀ (ls : List (List α)), (∀ l ∈ ls, ∀ c ∈ l, p c = false) → ls ≠ [] →
      List.splitOnP p (List.intercalate [sep] ls) = ls := by
  intro ls
  induction ls with
  | nil => intro _ h; exact absurd rfl h
  | cons hd tl ih =>
    intro hclean _
    cases tl with
    | nil =>
      have : List.intercalate [sep] [hd] = hd := by
        simp [List.intercalate]
      rw [this]
      exact List.splitOnP_eq_single _ _
        (fun x hx => by simp [hclean hd (List.mem_singleton_self hd) x hx])
    | cons hd2 tl2 =>
      have hunf : List.intercalate [sep] (hd :: hd2 :: tl2) =
          hd ++ sep :: List.intercalate [sep] (hd2 :: tl2) := by
        rw [list_intercalate_cons_cons]
        simp
      rw [hunf, List.splitOnP_first p hd
        (fun x hx => by simp [hclean hd (List.mem_cons_self _ _) x hx]) sep hsep]
      rw [ih (fun l hl c hc => hclean l (List.mem_cons_of_mem hd hl) c hc)
        (List.cons_ne_nil hd2 tl2)]

/-- Prepending the indent to an `intercalate (sep :: indent)` pushes the
indent onto every piece. -/
theorem prepend_intercalate {α : Type} (sp : List α) (x : α) :
    ∀ (ps : List (List α)), ps ≠ [] →
      sp ++ List.intercalate (x :: sp) ps =
        List.intercalate [x] (ps.map (fun l => sp ++ l)) := by
  intro ps
  induction ps with
  | nil => intro h; exact absurd rfl h
  | cons hd tl ih =>
    intro _
    cases tl with
    | nil => simp [List.intercalate]
    | cons hd2 tl2 =>
      rw [list_intercalate_cons_cons (x :: sp) hd hd2 tl2, List.map_cons, List.map_cons,
        list_intercalate_cons_cons [x] (sp ++ hd) (sp ++ hd2) (List.map (fun l => sp ++ l) tl2)]
      have h2 := ih (List.cons_ne_nil hd2 tl2)
      rw [List.map_cons] at h2
      rw [← h2]
      simp [List.append_assoc]

/-- The splitting predicate of `_shift_line`. -/
def isNewline (c : Char) : Bool := c = '\n'

theorem linesOf_eq (s : String) :
    linesOf s = (List.splitOnP isNewline s.data).map String.mk :=
  String.split_of_valid s _

theorem linesOf_ne_nil (s : String) : linesOf s ≠ [] := by
  rw [linesOf_eq]
  intro h
  exact List.splitOnP_ne_nil isNewline s.data (List.map_eq_nil_iff.mp h)

/-- The central mechanism: a two-space line start followed by a
`_shift_line`-shifted text has exactly the lines of the original text, each
pushed right by one indent level. -/
theorem linesOf_indentOnce (t : String) :
    linesOf (indentOnce t) = (linesOf t).map (fun l => "  " ++ l) := by
  have hps := splitOnP_pieces_clean isNewline t.data
  set ps := List.splitOnP isNewline t.data with hps_def
  have hne : ps ≠ [] := List.splitOnP_ne_nil isNewline t.data
  have hshift : (shift_line t).data = List.intercalate ('\n' :: [' ', ' ']) ps := by
    show (String.intercalate "\n  " (t.split (fun c => c = '\n'))).data = _
    rw [data_intercalate]
    have hsplit : t.split (fun c => decide (c = '\n')) = ps.map String.mk := by
      rw [String.split_of_valid]
      rfl
    rw [hsplit, List.map_map]
    have : String.data ∘ String.mk = id := by
      funext l; rfl
    rw [this, List.map_id]
  have hdata : (indentOnce t).data =
      List.intercalate ['\n'] (ps.map (fun l => [' ', ' '] ++ l)) := by
    show ("  " ++ shift_line t).data = _
    rw [String.data_append, hshift]
    exact prepend_intercalate [' ', ' '] '\n' ps hne
  rw [linesOf_eq, hdata]
  rw [splitOnP_intercalate_singleton isNewline '\n' (by simp [isNewline])
    (ps.map (fun l => [' ', ' '] ++ l))
    (by
      intro l hl c hc
      rcases List.mem_map.mp hl with ⟨l0, hl0, rfl⟩
      rcases List.mem_append.mp hc with h | h
      · rcases List.mem_cons.mp h with rfl | h2
        · simp [isNewline]
        · rcases List.mem_singleton.mp h2 with rfl
          simp [isNewline]
      · exact hps l0 hl0 c h)
    (by
      intro h
      exact hne (List.map_eq_nil_iff.mp h))]
  rw [linesOf_eq, ← hps_def, List.map_map, List.map_map]
  rfl

/-- Iterating the mechanism: a text `n` levels deep carries exactly `n`
indent levels — `2 * n` spaces — in front of each of its lines. -/
theorem linesOf_indentIter (n : Nat) (t : String) :
    linesOf (indentIter n t) = (linesOf t).map (fun l => indentSpaces n ++ l) := by
  induction n with
  | zero =>
    show linesOf t = (linesOf t).map (fun l => "" ++ l)
    simp
  | succ n ih =>
    show linesOf (indentOnce (indentIter n t)) = _
    rw [linesOf_indentOnce, ih, List.map_map]
    congr 1

/-! ## Rendering with explicit object state

Python objects could in principle be mutated by a method call.  To show that
`render()` is a pure read-only traversal, we re-embed every `render` method
in state-passing style: each call returns its text together with the entity
as it stands after the call, child calls being threaded left to right in
program order exactly as the Python methods perform them.  The theorems
below prove that each `renderSt` returns the text of the pure `render` and
leaves the entity unchanged. -/

def Variable.renderSt (v : Variable) : String × Variable :=
  ("$" ++ v.name ++ ": " ++ v.type ++
    (match v.default with
     | none => ""
     | some d => " = " ++ d),
   ⟨v.name, v.type, v.default⟩)

mutual
def Argument.renderSt : Argument → String × Argument
  | .mk name value =>
    match value with
    | .str v => (name ++ ": " ++ v, .mk name (.str v))
    | .arg a =>
      let r := Argument.renderSt a
      (name ++ ": \x7b\n  " ++ shift_line r.1 ++ "\n\x7d", .mk name (.arg r.2))
    | .varRef v => (name ++ ": $" ++ v.name, .mk name (.varRef ⟨v.name, v.type, v.default⟩))
    | .args l =>
      let r := Argument.renderEachSt l
      (name ++ ": [\n" ++
        String.intercalate "\n" (r.1.map (fun x => "  " ++ x)) ++ "\n]",
       .mk name (.args r.2))

def Argument.renderEachSt : List Argument → List String × List Argument
  | [] => ([], [])
  | a :: rest =>
    let r := Argument.renderSt a
    let rs := Argument.renderEachSt rest
    (shift_line r.1 :: rs.1, r.2 :: rs.2)
end

mutual
theorem argument_renderSt_eq : ∀ a : Argument, Argument.renderSt a = (Argument.render a, a)
  | .mk name value => by
    cases value with
    | str v => rfl
    | arg a =>
      have h := argument_renderSt_eq a
      simp [Argument.renderSt, Argument.render, h]
    | varRef v => rfl
    | args l =>
      have h := argument_renderEachSt_eq l
      simp [Argument.renderSt, Argument.render, h]

theorem argument_renderEachSt_eq :
    ∀ l : List Argument, Argument.renderEachSt l = (Argument.renderEach l, l)
  | [] => rfl
  | a :: rest => by
    have h1 := argument_renderSt_eq a
    have h2 := argument_renderEachSt_eq rest
    simp [Argument.renderEachSt, Argument.renderEach, h1, h2]
end

mutual
def Field.renderSt : GraphQL2Python.Field → String × GraphQL2Python.Field
  | .mk name al args fields typename =>
    let ra := Argument.renderEachSt args
    let rf := FieldChild.renderEachSt fields
    (renderHeaderName al name ++ renderArgsBlock ra.1 ++
      (if fields.isEmpty && !typename then ""
       else renderSelections typename rf.1),
     .mk name al ra.2 rf.2 typename)

def InlineFragment.renderSt : InlineFragment → String × InlineFragment
  | .mk type args fields typename =>
    let ra := Argument.renderEachSt args
    let rf := FieldChild.renderEachSt fields
    ("... on " ++ type ++ renderArgsBlock ra.1 ++ renderSelections typename rf.1,
     .mk type ra.2 rf.2 typename)

def Fragment.renderSt : Fragment → String × Fragment
  | .mk name type fields typename =>
    let rf := FieldChild.renderEachSt fields
    ("fragment " ++ name ++ " on " ++ type ++ renderSelections typename rf.1,
     .mk name type rf.2 typename)

def render_fieldSt : FieldChild → String × FieldChild
  | .str s => (s, .str s)
  | .fragment f => ("..." ++ f.name, .fragment f)
  | .field f =>
    let r := Field.renderSt f
    (shift_line r.1, .field r.2)
  | .inlineFragment i =>
    let r := InlineFragment.renderSt i
    (shift_line r.1, .inlineFragment r.2)

def FieldChild.renderEachSt : List FieldChild → List String × List FieldChild
  | [] => ([], [])
  | c :: cs =>
    let r := render_fieldSt c
    let rs := FieldChild.renderEachSt cs
    (r.1 :: rs.1, r.2 :: rs.2)
end

mutual
theorem field_renderSt_eq :
    ∀ f : GraphQL2Python.Field, Field.renderSt f = (Field.render f, f)
  | .mk name al args fields typename => by
    have h1 := argument_renderEachSt_eq args
    have h2 := fieldChild_renderEachSt_eq fields
    simp [Field.renderSt, Field.render, h1, h2]

theorem inlineFragment_renderSt_eq :
    ∀ i : InlineFragment, InlineFragment.renderSt i = (InlineFragment.render i, i)
  | .mk type args fields typename => by
    have h1 := argument_renderEachSt_eq args
    have h2 := fieldChild_renderEachSt_eq fields
    simp [InlineFragment.renderSt, InlineFragment.render, h1, h2]

theorem fragment_renderSt_eq :
    ∀ f : Fragment, Fragment.renderSt f = (Fragment.render f, f)
  | .mk name type fields typename => by
    have h2 := fieldChild_renderEachSt_eq fields
    simp [Fragment.renderSt, Fragment.render, h2]

theorem render_fieldSt_eq :
    ∀ c : FieldChild, render_fieldSt c = (render_field c, c)
  | .str s => rfl
  | .fragment f => rfl
  | .field f => by
    have h := field_renderSt_eq f
    simp [render_fieldSt, render_field, h]
  | .inlineFragment i => by
    have h := inlineFragment_renderSt_eq i
    simp [render_fieldSt, render_field, h]

theorem fieldChild_renderEachSt_eq :
    ∀ cs : List FieldChild, FieldChild.renderEachSt cs = (FieldChild.renderEach cs, cs)
  | [] => rfl
  | c :: cs => by
    have h1 := render_fieldSt_eq c
    have h2 := fieldChild_renderEachSt_eq cs
    simp [FieldChild.renderEachSt, FieldChild.renderEach, h1, h2]
end

def Query.renderSt (q : Query) : String × Query :=
  let ra := Argument.renderEachSt q.arguments
  let rf := FieldChild.renderEachSt q.fields
  (renderHeaderName q.«alias» q.name ++ renderArgsBlock ra.1 ++
    renderSelections q.typename rf.1,
   ⟨q.name, q.«alias», ra.2, q.typename, rf.2⟩)

theorem query_renderSt_eq (q : Query) : Query.renderSt q = (Query.render q, q) := by
  have h1 := argument_renderEachSt_eq q.arguments
  have h2 := fieldChild_renderEachSt_eq q.fields
  simp [Query.renderSt, Query.render, h1, h2]

def Variable.renderEachSt : List Variable → List String × List Variable
  | [] => ([], [])
  | v :: vs =>
    let r := Variable.renderSt v
    let rs := Variable.renderEachSt vs
    (shift_line r.1 :: rs.1, r.2 :: rs.2)

theorem variable_renderEachSt_eq (vs : List Variable) :
    Variable.renderEachSt vs = (vs.map (fun v => shift_line v.render), vs) := by
  induction vs with
  | nil => rfl
  | cons v vs ih =>
    have h : Variable.renderSt v = (Variable.render v, v) := rfl
    simp [Variable.renderEachSt, h, ih]

def Query.renderEachSt : List Query → List String × List Query
  | [] => ([], [])
  | q :: qs =>
    let r := Query.renderSt q
    let rs := Query.renderEachSt qs
    (shift_line r.1 :: rs.1, r.2 :: rs.2)

theorem query_renderEachSt_eq (qs : List Query) :
    Query.renderEachSt qs = (qs.map (fun q => shift_line q.render), qs) := by
  induction qs with
  | nil => rfl
  | cons q qs ih =>
    simp [Query.renderEachSt, query_renderSt_eq q, ih]

def Fragment.renderEachSt : List Fragment → List String × List Fragment
  | [] => ([], [])
  | f :: fs =>
    let r := Fragment.renderSt f
    let rs := Fragment.renderEachSt fs
    (r.1 :: rs.1, r.2 :: rs.2)

theorem fragment_renderEachSt_eq (fs : List Fragment) :
    Fragment.renderEachSt fs = (fs.map Fragment.render, fs) := by
  induction fs with
  | nil => rfl
  | cons f fs ih =>
    simp [Fragment.renderEachSt, fragment_renderSt_eq f, ih]

def Operation.renderSt (o : Operation) : String × Operation :=
  let rv := Variable.renderEachSt o.«variables»
  let rq := Query.renderEachSt o.queries
  let rf := Fragment.renderEachSt o.fragments
  (o.type ++
    (match o.name with
     | none => ""
     | some n => " " ++ n) ++
    (if o.«variables».isEmpty then ""
     else "(" ++ String.intercalate ", " rv.1 ++ ")") ++
    " \x7b\n" ++ String.intercalate "\n" (rq.1.map (fun q => "  " ++ q)) ++ "\n\x7d" ++
    String.join (rf.1.map (fun f => "\n\n" ++ f)),
   ⟨o.type, o.name, rv.2, rq.2, rf.2⟩)

theorem operation_renderSt_eq (o : Operation) :
    Operation.renderSt o = (Operation.render o, o) := by
  simp [Operation.renderSt, Operation.render, operationHead, fragmentsSection,
    variable_renderEachSt_eq, query_renderEachSt_eq, fragment_renderEachSt_eq,
    List.map_map, Function.comp]
  rfl

/-! ## Helper lemmas for the claims -/

/-- A failing check makes `build` fail and surfaces the failure. -/
theorem build_error_of_check {α : Type} (checks : List (Option QueryError)) (value : α)
    (e : QueryError) (he : some e ∈ checks) :
    ∃ errs, build checks value = .error errs ∧ e ∈ errs := by
  have hmem : e ∈ runChecks checks := by
    rw [runChecks, List.mem_filterMap]
    exact ⟨some e, he, rfl⟩
  cases h : runChecks checks with
  | nil => rw [h] at hmem; cases hmem
  | cons x xs =>
    refine ⟨x :: xs, ?_, h ▸ hmem⟩
    simp [build, h]

/-- The comprehension over `self.arguments` is an order- and
multiplicity-preserving map. -/
theorem renderEach_eq_map (l : List Argument) :
    Argument.renderEach l = l.map (fun a => shift_line a.render) := by
  induction l with
  | nil => rfl
  | cons a rest ih => simp [Argument.renderEach, ih]

/-! ## The claims -/

/-- C1: the claim says constructing an `Operation` whose `type` is not one
of `query`, `mutation`, `subscription` fails, and that every constructed
`Operation` has one of these three types.  The code violates this: the
class declares `_supported_types = ["query", "mutation", "subscription"]`
but no validator ever consults it, so `Operation(type="frobnicate",
queries=[Query(name="q", fields=["f"])])` constructs successfully.  This
theorem evaluates the embedded constructor at that failing input. -/
theorem c1_operation_type_not_validated :
    "frobnicate" ∉ Operation.supported_types ∧
    mkOperation "frobnicate" none [] (some [⟨"q", none, [], false, [.str "f"]⟩]) [] =
      .ok ⟨"frobnicate", none, [], [⟨"q", none, [], false, [.str "f"]⟩], []⟩ := by
  constructor
  · decide
  · rfl

/-- C2: the claim says every construction of an `InlineFragment`,
`Fragment` or `Query` with an empty `fields` list, and of an `Operation`
with an empty `queries` list, fails with an `EmptySelectionError` before
any render, no such entity ever being produced.  The code violates this:
its empty-selection guards are plain pydantic v1 validators, skipped when
the guarded field is not supplied, so `InlineFragment(type="X")`,
`Fragment(name="f", type="T")`, `Query(name="q")` and `Operation()`
construct with empty selections through the `default_factory` path and
then render without failure.  This theorem evaluates the embedded
constructors at these failing inputs, renders two of the resulting
entities, and contrasts with the supplied-empty-list path, which does fail
— the guard exists but does not cover the default. -/
theorem intercalate_nil (s : String) : String.intercalate s [] = "" := rfl

theorem c2_empty_selection_skipped_on_default :
    mkInlineFragment "X" [] none false = .ok (.mk "X" [] [] false) ∧
    mkFragment "f" "T" none false = .ok (.mk "f" "T" [] false) ∧
    mkQuery "q" none [] false none = .ok ⟨"q", none, [], false, []⟩ ∧
    mkOperation "query" none [] none [] = .ok ⟨"query", none, [], [], []⟩ ∧
    Query.render ⟨"q", none, [], false, []⟩ = "q \x7b\n\n\x7d" ∧
    Operation.render ⟨"query", none, [], [], []⟩ = "query \x7b\n\n\x7d" ∧
    mkQuery "q" none [] false (some []) =
      .error [.emptySelectionError "query"] := by
  refine ⟨rfl, rfl, rfl, rfl, ?_, ?_, rfl⟩
  · refine String.ext ?_
    simp [Query.render, renderHeaderName, renderArgsBlock, renderSelections,
      Argument.renderEach, FieldChild.renderEach, intercalate_nil,
      String.data_append]
  · refine String.ext ?_
    simp [Operation.render, operationHead, fragmentsSection, intercalate_nil,
      String.data_append]

/-- C3: a `Fragment` occurring in a `fields` list renders at that site as
the spread `...name` only — the text depends on nothing but the fragment's
name, so its body is never emitted there — while `Operation.render` emits
the full body of each fragment of `Operation.fragments` exactly once, at
the top level, after the head; spreading changes only the `...name`
occurrences inside the head, never the fragment-definition section. -/
theorem c3_fragment_spread_vs_definition :
    ∀ (f g : Fragment) (o : Operation),
    render_field (FieldChild.fragment f) = "..." ++ f.name ∧
    (g.name = f.name → render_field (.fragment g) = render_field (.fragment f)) ∧
    Operation.render o =
      operationHead o.type o.name o.«variables» o.queries ++
        String.join (o.fragments.map (fun fr => "\n\n" ++ Fragment.render fr)) := by
  intro f g o
  refine ⟨?_, ?_, rfl⟩
  · cases f; rfl
  · intro h
    cases f; cases g
    simp [render_field, Fragment.name] at h ⊢
    rw [h]

/-- Witness for C3 at concrete fragments sharing a name but differing in
body: the spread text coincides. -/
theorem c3_fragment_spread_vs_definition_witness :
    render_field (.fragment (.mk "cmp" "Character" [.str "name"] false)) =
      "..." ++ Fragment.name (.mk "cmp" "Character" [.str "name"] false) ∧
    render_field (.fragment (.mk "cmp" "Other" [.str "x"] true)) =
      render_field (.fragment (.mk "cmp" "Character" [.str "name"] false)) :=
  ⟨(c3_fragment_spread_vs_definition (.mk "cmp" "Character" [.str "name"] false)
      (.mk "cmp" "Other" [.str "x"] true) ⟨"query", none, [], [], []⟩).1,
   (c3_fragment_spread_vs_definition (.mk "cmp" "Character" [.str "name"] false)
      (.mk "cmp" "Other" [.str "x"] true) ⟨"query", none, [], [], []⟩).2.1 rfl⟩

/-- C4: a `Field` or `InlineFragment` child is rendered recursively, passed
through `_shift_line` and written after a two-space line start, so every
line of the child's text is indented by exactly one level (two spaces)
relative to its parent; iterating, a node at nesting depth `n` has exactly
`n` indent levels (`2 * n` spaces) more than the root. -/
theorem c4_nesting_indents_one_level :
    ∀ (f : GraphQL2Python.Field) (i : InlineFragment) (n : Nat) (t : String),
    render_field (.field f) = shift_line (Field.render f) ∧
    render_field (.inlineFragment i) = shift_line (InlineFragment.render i) ∧
    linesOf ("  " ++ render_field (.field f)) =
      (linesOf (Field.render f)).map (fun l => "  " ++ l) ∧
    linesOf ("  " ++ render_field (.inlineFragment i)) =
      (linesOf (InlineFragment.render i)).map (fun l => "  " ++ l) ∧
    linesOf (indentIter n t) = (linesOf t).map (fun l => indentSpaces n ++ l) := by
  intro f i n t
  refine ⟨by simp [render_field], by simp [render_field], ?_, ?_, linesOf_indentIter n t⟩
  · show linesOf (indentOnce (Field.render f)) = _
    exact linesOf_indentOnce (Field.render f)
  · show linesOf (indentOnce (InlineFragment.render i)) = _
    exact linesOf_indentOnce (InlineFragment.render i)

theorem intercalate_single (s a : String) : String.intercalate s [a] = a := rfl

/-- C5: name validation is the identity on every string the target
language's name grammar accepts — an underscore or letter followed by
underscores, letters and digits — and fails with a `NamingError` carrying
the offending string on every other string (empty, leading digit, illegal
character); the constructors apply it to `Variable.name`, `Argument.name`
and `Field.name`/`Field.alias` at construction.  (The grammar reserves
double-underscore names for introspection but does not reject them
lexically, so no string carries a disallowed double-underscore prefix.) -/
theorem c5_name_validation :
    ∀ s : String,
    (validate_name s = .ok s ↔
      ∃ c cs, s.data = c :: cs ∧ (c = '_' ∨ c.isAlpha = true) ∧
        ∀ d ∈ cs, d = '_' ∨ d.isAlpha = true ∨ d.isDigit = true) ∧
    (validate_name s = .ok s ∨ validate_name s = .error (.namingError s)) ∧
    (∀ t d, mkVariable s t d =
      if isValidName s then .ok ⟨s, t, d⟩ else .error [.namingError s]) ∧
    (∀ v, mkArgument s v =
      if isValidName s then .ok (.mk s v) else .error [.namingError s]) ∧
    (∀ al args fs tn, isValidName s = true →
      (∀ a, al = some a → isValidName a = true) →
      mkField s al args fs tn = .ok (.mk s al args fs tn)) := by
  intro s
  refine ⟨?_, ?_, ?_, ?_, ?_⟩
  · have hbase : validate_name s = .ok s ↔ isValidName s = true := by
      unfold validate_name
      by_cases h : isValidName s
      · simp [h]
      · simp [h]
    rw [hbase]
    unfold isValidName
    cases hdata : s.data with
    | nil => simp
    | cons c cs =>
      simp only [Bool.and_eq_true, List.all_eq_true]
      constructor
      · rintro ⟨h1, h2⟩
        refine ⟨c, cs, rfl, ?_, ?_⟩
        · simpa [isNameStart] using h1
        · intro d hd
          simpa [isNameContinue, isNameStart, or_assoc] using h2 d hd
      · rintro ⟨c2, cs2, heq, h1, h2⟩
        injection heq with e1 e2
        subst e1; subst e2
        refine ⟨by simpa [isNameStart] using h1, ?_⟩
        intro d hd
        simpa [isNameContinue, isNameStart, or_assoc] using h2 d hd
  · by_cases h : isValidName s
    · left; simp [validate_name, h]
    · right; simp [validate_name, h]
  · intro t d
    by_cases h : isValidName s <;>
      simp [mkVariable, build, runChecks, nameCheck, validate_name, h]
  · intro v
    by_cases h : isValidName s <;>
      simp [mkArgument, build, runChecks, nameCheck, validate_name, h]
  · intro al args fs tn h1 h2
    cases al with
    | none => simp [mkField, build, runChecks, nameCheck, aliasCheck, validate_name, h1]
    | some a =>
      have ha := h2 a rfl
      simp [mkField, build, runChecks, nameCheck, aliasCheck, validate_name, h1, ha]

/-- Witness for C5 at concrete inputs: a legal name passes construction
unchanged, and the hypotheses of the `Field` conjunct hold at `"hero"`. -/
theorem c5_name_validation_witness :
    isValidName "hero" = true ∧
    mkField "hero" none [] [] false = .ok (.mk "hero" none [] [] false) :=
  ⟨by decide,
   (c5_name_validation "hero").2.2.2.2 none [] [] false (by decide)
     (fun _ ha => nomatch ha)⟩

/-- The comprehension over `self.fields` is an order- and
multiplicity-preserving map. -/
theorem fieldChild_renderEach_eq_map (cs : List FieldChild) :
    FieldChild.renderEach cs = cs.map render_field := by
  induction cs with
  | nil => simp [FieldChild.renderEach]
  | cons c cs ih => simp [FieldChild.renderEach, ih]

/-- C6: rendering preserves input order and multiplicity everywhere: an
operation with queries `[q1, q2]` renders `q1`'s block textually before
`q2`'s; a query with arguments `[a1, a2]` renders `a1`'s text before
`a2`'s (with `a1` and `a2` arbitrary — duplicate names, or even identical
arguments, pass through); a query with selection children `[c1, c2]`
renders `c1`'s text before `c2`'s; and both the argument list and the
selection-children list handed to the templates are order- and
multiplicity-preserving maps of the input lists, never sorted or
deduplicated (`FieldChild.renderEach` is the child renderer of every
container — `Field`, `InlineFragment`, `Fragment` and `Query` alike). -/
theorem c6_order_preserved :
    (∀ (o : Operation) (q1 q2 : Query), o.queries = [q1, q2] →
      ∃ pre mid post, Operation.render o =
        pre ++ shift_line q1.render ++ mid ++ shift_line q2.render ++ post) ∧
    (∀ (q : Query) (a1 a2 : Argument), q.arguments = [a1, a2] →
      ∃ pre mid post, Query.render q =
        pre ++ shift_line a1.render ++ mid ++ shift_line a2.render ++ post) ∧
    (∀ (q : Query) (c1 c2 : FieldChild), q.fields = [c1, c2] →
      ∃ pre mid post, Query.render q =
        pre ++ render_field c1 ++ mid ++ render_field c2 ++ post) ∧
    (∀ args : List Argument,
      Argument.renderEach args = args.map (fun a => shift_line a.render)) ∧
    (∀ cs : List FieldChild,
      FieldChild.renderEach cs = cs.map render_field) := by
  refine ⟨?_, ?_, ?_, renderEach_eq_map, fieldChild_renderEach_eq_map⟩
  · intro o q1 q2 hq
    refine ⟨o.type ++
      (match o.name with
       | none => ""
       | some n => " " ++ n) ++
      (if o.«variables».isEmpty then ""
       else "(" ++
         String.intercalate ", " (o.«variables».map (fun v => shift_line v.render)) ++ ")") ++
      " \x7b\n" ++ "  ", "\n" ++ "  ", "\n\x7d" ++ fragmentsSection o.fragments, ?_⟩
    refine String.ext ?_
    simp only [Operation.render, operationHead, hq, List.map_cons, List.map_nil,
      string_intercalate_cons_cons, intercalate_single, String.data_append,
      List.append_assoc]
  · intro q a1 a2 ha
    refine ⟨renderHeaderName q.«alias» q.name ++ "(\n" ++ "  ", "\n" ++ "  ",
      "\n)" ++ renderSelections q.typename (FieldChild.renderEach q.fields), ?_⟩
    refine String.ext ?_
    simp only [Query.render, ha, renderArgsBlock, Argument.renderEach,
      List.isEmpty_cons, List.map_cons, List.map_nil, Bool.false_eq_true,
      if_false, string_intercalate_cons_cons, intercalate_single,
      String.data_append, List.append_assoc]
  · intro q c1 c2 hc
    refine ⟨renderHeaderName q.«alias» q.name ++
      renderArgsBlock (Argument.renderEach q.arguments) ++ " \x7b\n" ++
      (if q.typename then "  __typename" ++ "\n" ++ "  " else "  "),
      "\n" ++ "  ", "\n\x7d", ?_⟩
    refine String.ext ?_
    by_cases ht : q.typename
    · simp only [Query.render, hc, renderSelections, fieldChild_renderEach_eq_map,
        List.map_cons, List.map_nil, ht, if_true, List.cons_append, List.nil_append,
        string_intercalate_cons_cons, intercalate_single, String.data_append,
        List.append_assoc]
    · simp only [Query.render, hc, renderSelections, fieldChild_renderEach_eq_map,
        List.map_cons, List.map_nil, ht, Bool.false_eq_true, if_false,
        List.cons_append, List.nil_append, string_intercalate_cons_cons,
        intercalate_single, String.data_append, List.append_assoc]

/-- Witness for C6 at a concrete two-query operation and a concrete
two-argument query. -/
theorem c6_order_preserved_witness :
    (∃ pre mid post,
      Operation.render
          ⟨"query", none, [],
            [⟨"a", none, [], false, [.str "x"]⟩, ⟨"b", none, [], false, [.str "y"]⟩],
            []⟩ =
        pre ++ shift_line (Query.render ⟨"a", none, [], false, [.str "x"]⟩) ++ mid ++
          shift_line (Query.render ⟨"b", none, [], false, [.str "y"]⟩) ++ post) ∧
    (∃ pre mid post,
      Query.render ⟨"q", none, [.mk "u" (.str "1"), .mk "u" (.str "1")], false, [.str "x"]⟩ =
        pre ++ shift_line (Argument.render (.mk "u" (.str "1"))) ++ mid ++
          shift_line (Argument.render (.mk "u" (.str "1"))) ++ post) ∧
    (∃ pre mid post,
      Query.render ⟨"q", none, [], false, [.str "x", .str "x"]⟩ =
        pre ++ render_field (.str "x") ++ mid ++ render_field (.str "x") ++ post) :=
  ⟨c6_order_preserved.1 _ _ _ rfl, c6_order_preserved.2.1 _ _ _ rfl,
   c6_order_preserved.2.2.1 _ _ _ rfl⟩

/-- C7: rendering is a pure, deterministic read of the constructed tree:
the state-threaded embedding of `Operation.render` returns exactly the text
of the pure render and returns the operation — every field of it and of all
its children — unchanged, so a second call on the returned state yields
byte-identical text. -/
theorem c7_render_pure_idempotent :
    ∀ o : Operation,
    Operation.renderSt o = (Operation.render o, o) ∧
    (Operation.renderSt (Operation.renderSt o).2).1 = (Operation.renderSt o).1 ∧
    (Operation.renderSt (Operation.renderSt o).2).2 = o := by
  intro o
  have h := operation_renderSt_eq o
  refine ⟨h, ?_, ?_⟩ <;> simp [h, operation_renderSt_eq]

/-- C8: an argument whose value is a variable renders as `name: $` followed
by the variable's name only; the variable's type and default never reach
the text — replacing them changes nothing. -/
theorem c8_argument_variable_spread :
    ∀ (nm : String) (v : Variable) (t2 : String) (d2 : Option String),
    Argument.render (.mk nm (.varRef v)) = nm ++ ": $" ++ v.name ∧
    Argument.render (.mk nm (.varRef ⟨v.name, t2, d2⟩)) =
      Argument.render (.mk nm (.varRef v)) := by
  intro nm v t2 d2
  constructor
  · simp [Argument.render]
  · simp [Argument.render]

/-- C9: the end-to-end variable scenario — `Variable(name="episode",
type="Episode", default="JEDI")` constructs successfully and renders to
exactly `$episode: Episode = JEDI`. -/
theorem c9_variable_scenario :
    mkVariable "episode" "Episode" (some "JEDI") =
      .ok ⟨"episode", "Episode", some "JEDI"⟩ ∧
    Variable.render ⟨"episode", "Episode", some "JEDI"⟩ =
      "$episode: Episode = JEDI" := by
  constructor
  · rfl
  · rfl

/-- C10: a `Field` with an empty `fields` list and a legal name (and legal
alias, if any) constructs successfully — `Field`, unlike `InlineFragment`,
`Fragment` and `Query`, has no non-empty-selection validator — producing a
leaf field with zero children on which `render` is defined like on any
other field. -/
theorem c10_leaf_field_constructible :
    ∀ (nm : String) (al : Option String) (args : List Argument) (tn : Bool),
    isValidName nm = true → (∀ a, al = some a → isValidName a = true) →
    ∃ f, mkField nm al args [] tn = .ok f ∧ f.fields = [] ∧
      f.render = Field.render (.mk nm al args [] tn) := by
  intro nm al args tn h1 h2
  refine ⟨.mk nm al args [] tn, ?_, rfl, rfl⟩
  cases al with
  | none => simp [mkField, build, runChecks, nameCheck, aliasCheck, validate_name, h1]
  | some a =>
    have ha := h2 a rfl
    simp [mkField, build, runChecks, nameCheck, aliasCheck, validate_name, h1, ha]

/-- Witness for C10: the leaf field `Field(name="f1")` constructs. -/
theorem c10_leaf_field_constructible_witness :
    isValidName "f1" = true ∧
    ∃ f, mkField "f1" none [] [] false = .ok f ∧ f.fields = [] ∧
      f.render = Field.render (.mk "f1" none [] [] false) :=
  ⟨by decide,
   c10_leaf_field_constructible "f1" none [] false (by decide)
     (fun _ ha => nomatch ha)⟩

end GraphQL2Python
